import Mathlib

/-
Verification of `openvdb/math/Tuple.h` (openvdb::math::Tuple<SIZE, T>).

The tuple's backing array `T mm[SIZE]` is modelled as a function
`Fin SIZE → T`.  C++ template parameters become ordinary Lean arguments;
type-level facts (boost::is_integral, sizeof) become explicit parameters.
-/

namespace math

/-- `Tuple<SIZE, T>`: a fixed-size homogeneous tuple; the backing array
`T mm[SIZE]` is the function `mm : Fin SIZE → T`. -/
structure Tuple (SIZE : Nat) (T : Type) where
  mm : Fin SIZE → T

instance {n : Nat} {T : Type} [DecidableEq T] : DecidableEq (Tuple n T) :=
  fun a b => decidable_of_iff (a.mm = b.mm) (by cases a; cases b; simp)

/-- The conversion constructor
`template <int src_size, typename src_valtype> explicit Tuple(Tuple<src_size, src_valtype> const &src)`:
`copyEnd = SIZE < src_size ? SIZE : src_size`; indices below `copyEnd` copy
(and value-convert, via `conv`) the source element, the rest are set to `0`. -/
def Tuple.convert {M : Nat} {U T : Type} [Zero T] (N : Nat) (conv : U → T)
    (src : Tuple M U) : Tuple N T :=
  ⟨fun i => if h : i.val < min N M then conv (src.mm ⟨i.val, by omega⟩) else 0⟩

/-- Writing through the mutable `T& operator[](int i)`: `t[i] = x` replaces
slot `i` of the backing array and nothing else. -/
def Tuple.set {n : Nat} {T : Type} (t : Tuple n T) (i : Fin n) (x : T) :
    Tuple n T :=
  ⟨fun j => if j = i then x else t.mm j⟩

/-- The scan shared by `operator<`: walk the component pairs for indices
`0 .. SIZE-2` in order; at the first pair that is not exactly equal
(`isExactlyEqual` is `==` on the values), return the comparison of that
pair; if none differs, compare the pair at index `SIZE-1`. -/
def ltScan {T : Type} [LinearOrder T] : List (T × T) → T × T → Bool
  | [], last => decide (last.1 < last.2)
  | p :: rest, last => if p.1 = p.2 then ltScan rest last else decide (p.1 < p.2)

/-- Same scan with `>` in place of `<`, as in `operator>`. -/
def gtScan {T : Type} [LinearOrder T] : List (T × T) → T × T → Bool
  | [], last => decide (last.1 > last.2)
  | p :: rest, last => if p.1 = p.2 then gtScan rest last else decide (p.1 > p.2)

/-- The pairs `(t0[i], t1[i])` for `i = 0 .. SIZE-2`, in index order. -/
def Tuple.pairList {n : Nat} {T : Type} (t0 t1 : Tuple (n + 1) T) :
    List (T × T) :=
  (List.finRange n).map fun i => (t0.mm i.castSucc, t1.mm i.castSucc)

/-- `operator<(const Tuple<SIZE, T0>&, const Tuple<SIZE, T1>&)`
(both element types instantiated at `T`). -/
def tupleLt {n : Nat} {T : Type} [LinearOrder T] (t0 t1 : Tuple (n + 1) T) :
    Bool :=
  ltScan (Tuple.pairList t0 t1) (t0.mm (Fin.last n), t1.mm (Fin.last n))

/-- `operator>(const Tuple<SIZE, T0>&, const Tuple<SIZE, T1>&)`
(both element types instantiated at `T`). -/
def tupleGt {n : Nat} {T : Type} [LinearOrder T] (t0 t1 : Tuple (n + 1) T) :
    Bool :=
  gtScan (Tuple.pairList t0 t1) (t0.mm (Fin.last n), t1.mm (Fin.last n))

/-- `Tuple::str()`: start the buffer with `"["`; for each index `j` in
order, first append `", "` when `j` is nonzero, then append the element's
text (`shw` models `operator<<` of the element type); finish with `"]"`. -/
def Tuple.str {n : Nat} {T : Type} (shw : T → String) (t : Tuple n T) :
    String :=
  ((List.finRange n).foldl
    (fun buffer j =>
      (if j.val ≠ 0 then buffer ++ ", " else buffer) ++ shw (t.mm j)) "[")
    ++ "]"

/-- `operator<<(std::ostream&, const Tuple<SIZE, T>&)`: writes
`classname.str()` to the stream, modelled as the string it emits. -/
def tupleStreamOut {n : Nat} {T : Type} (shw : T → String) (t : Tuple n T) :
    String :=
  Tuple.str shw t

/-- `", "` before each element after the first: the tail of a
comma-and-space separated rendering. -/
def sepTail : List String → String
  | [] => ""
  | e :: rest => ", " ++ e ++ sepTail rest

/-- Elements joined with the two-character separator `", "` between each
adjacent pair: `sepConcat [a, b, c] = a ++ ", " ++ b ++ ", " ++ c`, with
no leading or trailing separator. -/
def sepConcat : List String → String
  | [] => ""
  | e :: rest => e ++ sepTail rest

/-- `TupleAbs<SIZE, T, IsInteger = false>::absVal`: elementwise `::fabs`,
the element operation passed as `fabsOp`. -/
def TupleAbs.absValFloat {n : Nat} {T : Type} (fabsOp : T → T)
    (t : Tuple n T) : Tuple n T :=
  ⟨fun i => fabsOp (t.mm i)⟩

/-- `TupleAbs<SIZE, T, IsInteger = true>::absVal`: elementwise `::abs`,
the element operation passed as `absOp`. -/
def TupleAbs.absValInt {n : Nat} {T : Type} (absOp : T → T)
    (t : Tuple n T) : Tuple n T :=
  ⟨fun i => absOp (t.mm i)⟩

/-- `Abs(t) = TupleAbs<SIZE, T, boost::is_integral<T>::value>::absVal(t)`:
the compile-time numeric-category flag and the two candidate element
operations are explicit parameters. -/
def Abs {n : Nat} {T : Type} (isIntegral : Bool) (fabsOp absOp : T → T)
    (t : Tuple n T) : Tuple n T :=
  if isIntegral then TupleAbs.absValInt absOp t
  else TupleAbs.absValFloat fabsOp t

/-- `boost::is_integral<int>::value`. -/
def is_integral_int : Bool := true

/-- C `::abs` on `int`. -/
def cAbs (x : Int) : Int := if x < 0 then -x else x

/-- `Abs` instantiated at `T = int`.  The float-branch operation is passed
as the identity, so the statements below also certify that the integer
branch is the one selected. -/
def absIntTuple {n : Nat} (t : Tuple n Int) : Tuple n Int :=
  Abs is_integral_int (fun x => x) cAbs t

/-- `Tuple::write(std::ostream& os)`:
`os.write(reinterpret_cast<const char*>(&mm), sizeof(T)*SIZE)` emits the
raw bytes of the backing array: the concatenation, in index order, of each
element's `sizeof(T)`-byte in-memory image.  `enc` models the platform's
in-memory encoding of a `T` value; bytes are modelled as `Nat`. -/
def Tuple.write {n : Nat} {T : Type} (enc : T → List Nat) (t : Tuple n T) :
    List Nat :=
  ((List.finRange n).map fun i => enc (t.mm i)).flatten

/-- `Tuple::read(std::istream& is)`:
`is.read(reinterpret_cast<char*>(&mm), sizeof(T)*SIZE)` requests
`sizeof(T)*SIZE` bytes; the stream delivers the bytes it has (`bs`,
truncated to the request), which overwrite a prefix of the backing
array's bytes while the remaining bytes keep their prior values; element
`i` is then the platform decoding (`dec`, inverse of `enc`) of its
`sizeof(T)`-byte slot.  `szT` models `sizeof(T)`.  No byte count is
checked and no failure is reported: every input produces a tuple. -/
def Tuple.read {n : Nat} {T : Type} (szT : Nat) (enc : T → List Nat)
    (dec : List Nat → T) (bs : List Nat) (t : Tuple n T) : Tuple n T :=
  ⟨fun i =>
    dec ((((bs.take (szT * n))
        ++ (Tuple.write enc t).drop (bs.take (szT * n)).length).drop
          (szT * i.val)).take szT)⟩

/-- A concrete in-memory image for `int` values used to instantiate the
serialization theorems: one byte per value (`szT = 1`), via the usual
sign-folding pairing of integers with naturals. -/
def encI (x : Int) : List Nat :=
  [if x < 0 then 2 * (-x).toNat - 1 else 2 * x.toNat]

/-- Decoding matching `encI`. -/
def decI (l : List Nat) : Int :=
  if l.headD 0 % 2 = 1 then -(((l.headD 0 + 1) / 2 : Nat) : Int)
  else ((l.headD 0 / 2 : Nat) : Int)

end math

namespace math

lemma ltScan_eq_find {T : Type} [LinearOrder T] :
    ∀ (L : List (T × T)) (last : T × T),
      ltScan L last =
        (match L.find? (fun p => decide (p.1 ≠ p.2)) with
         | some p => decide (p.1 < p.2)
         | none => decide (last.1 < last.2))
  | [], _ => by simp [ltScan]
  | p :: rest, last => by
    by_cases h : p.1 = p.2
    · rw [ltScan, if_pos h, List.find?_cons_of_neg _ (by simp [h]),
        ltScan_eq_find rest last]
    · rw [ltScan, if_neg h, List.find?_cons_of_pos _ (by simp [h])]

lemma ltScan_allEq {T : Type} [LinearOrder T] (L : List (T × T))
    (last : T × T) (h : ∀ p ∈ L, p.1 = p.2) :
    ltScan L last = decide (last.1 < last.2) := by
  rw [ltScan_eq_find, List.find?_eq_none.mpr (by simpa using h)]

lemma ltScan_swap_false {T : Type} [LinearOrder T] :
    ∀ (L : List (T × T)) (last : T × T), ltScan L last = true →
      ltScan (L.map Prod.swap) (Prod.swap last) = false
  | [], last, h => by
    simp only [ltScan, decide_eq_true_eq] at h
    simp only [List.map_nil, ltScan, Prod.swap]
    simpa using not_lt_of_lt h
  | p :: rest, last, h => by
    by_cases hp : p.1 = p.2
    · rw [ltScan, if_pos hp] at h
      simp only [List.map_cons, ltScan, Prod.swap, hp.symm, if_pos rfl]
      exact ltScan_swap_false rest last h
    · rw [ltScan, if_neg hp, decide_eq_true_eq] at h
      simp only [List.map_cons, ltScan, Prod.swap, if_neg (Ne.symm hp)]
      simpa using not_lt_of_lt h

lemma gtScan_eq_ltScan_swap {T : Type} [LinearOrder T] :
    ∀ (L : List (T × T)) (last : T × T),
      gtScan L last = ltScan (L.map Prod.swap) (Prod.swap last)
  | [], _ => by simp [gtScan, ltScan, Prod.swap]
  | p :: rest, last => by
    by_cases hp : p.1 = p.2
    · simp only [gtScan, if_pos hp, List.map_cons, ltScan, Prod.swap,
        hp.symm, if_pos rfl]
      exact gtScan_eq_ltScan_swap rest last
    · simp only [gtScan, if_neg hp, List.map_cons, ltScan, Prod.swap,
        if_neg (Ne.symm hp)]

lemma pairList_swap {n : Nat} {T : Type} (t0 t1 : Tuple (n + 1) T) :
    Tuple.pairList t1 t0 = (Tuple.pairList t0 t1).map Prod.swap := by
  simp [Tuple.pairList, List.map_map, Function.comp, Prod.swap]

/-- C2: `operator<` returns, at the first index `i ≤ N-2` where the
components are not exactly equal, `t0[i] < t1[i]`; when no such index
exists it returns `t0[N-1] < t1[N-1]`.  In particular, with all-but-last
components equal the result is exactly the comparison of the last
components, and equal tuples compare `false`. -/
theorem tupleLt_scan_spec {n : Nat} {T : Type} [LinearOrder T]
    (t0 t1 : Tuple (n + 1) T) :
    tupleLt t0 t1 =
      (match (Tuple.pairList t0 t1).find? (fun p => decide (p.1 ≠ p.2)) with
       | some p => decide (p.1 < p.2)
       | none => decide (t0.mm (Fin.last n) < t1.mm (Fin.last n)))
    ∧ ((∀ i : Fin n, t0.mm i.castSucc = t1.mm i.castSucc) →
        ((tupleLt t0 t1 = true) ↔ t0.mm (Fin.last n) < t1.mm (Fin.last n)))
    ∧ (t0 = t1 → tupleLt t0 t1 = false) := by
  refine ⟨ltScan_eq_find _ _, ?_, ?_⟩
  · intro hall
    rw [tupleLt, ltScan_allEq]
    · simp
    · intro p hp
      simp only [Tuple.pairList, List.mem_map] at hp
      obtain ⟨i, -, rfl⟩ := hp
      exact hall i
  · rintro rfl
    rw [tupleLt, ltScan_allEq]
    · simp
    · intro p hp
      simp only [Tuple.pairList, List.mem_map] at hp
      obtain ⟨i, -, rfl⟩ := hp
      rfl

/-- Witness for C2 at `[1, 2, 3]` vs `[1, 2, 4]` (all-but-last equal) and
`[1, 2, 3]` vs itself. -/
theorem tupleLt_scan_spec_witness :
    tupleLt (⟨![1, 2, 3]⟩ : Tuple (2 + 1) Int) ⟨![1, 2, 4]⟩ = true
    ∧ tupleLt (⟨![1, 2, 3]⟩ : Tuple (2 + 1) Int) ⟨![1, 2, 3]⟩ = false :=
  ⟨((tupleLt_scan_spec (⟨![1, 2, 3]⟩ : Tuple (2 + 1) Int) ⟨![1, 2, 4]⟩).2.1
      (fun i => by fin_cases i <;> rfl)).mpr (by decide),
   (tupleLt_scan_spec (⟨![1, 2, 3]⟩ : Tuple (2 + 1) Int) ⟨![1, 2, 3]⟩).2.2 rfl⟩

/-- C5: `operator<` is asymmetric: `t0 < t1` and `t1 < t0` are never both
true (stated as: at least one of them is `false`). -/
theorem tupleLt_asymm {n : Nat} {T : Type} [LinearOrder T]
    (t0 t1 : Tuple (n + 1) T) :
    tupleLt t0 t1 = false ∨ tupleLt t1 t0 = false := by
  by_cases h : tupleLt t0 t1 = true
  · right
    rw [tupleLt, pairList_swap]
    exact ltScan_swap_false _ _ h
  · left
    exact Bool.eq_false_iff.mpr (fun hc => h hc)

/-- C9: `operator>` is the exact mirror of `operator<`:
`t0 > t1 = (t1 < t0)` for all same-size tuples. -/
theorem tupleGt_eq_tupleLt_swap {n : Nat} {T : Type} [LinearOrder T]
    (t0 t1 : Tuple (n + 1) T) :
    tupleGt t0 t1 = tupleLt t1 t0 := by
  rw [tupleGt, tupleLt, gtScan_eq_ltScan_swap, pairList_swap t0 t1]
  rfl

/-- C1: the converting constructor copies (type-converting) the first
`min(N, M)` source elements, zero-fills indices `M ≤ i < N`, and ignores
the trailing source elements beyond index `N`. -/
theorem convert_spec {M : Nat} {U T : Type} [Zero T] (N : Nat) (conv : U → T)
    (src : Tuple M U) (i : Fin N) :
    (∀ h : i.val < M, (Tuple.convert N conv src).mm i = conv (src.mm ⟨i.val, h⟩))
    ∧ (M ≤ i.val → (Tuple.convert N conv src).mm i = 0)
    ∧ (∀ src' : Tuple M U, (∀ j : Fin M, j.val < N → src.mm j = src'.mm j) →
        Tuple.convert N conv src = Tuple.convert N conv src') := by
  refine ⟨?_, ?_, ?_⟩
  · intro h
    have hlt : i.val < min N M := by omega
    simp only [Tuple.convert, hlt, dif_pos]
  · intro h
    have hge : ¬ i.val < min N M := by omega
    simp only [Tuple.convert, hge, dif_neg, not_false_iff]
  · intro src' hagree
    simp only [Tuple.convert, Tuple.mk.injEq]
    funext j
    by_cases h : j.val < min N M
    · simp only [h, dif_pos]
      have := hagree ⟨j.val, by omega⟩ (by simp only []; omega)
      rw [this]
    · simp only [h, dif_neg, not_false_iff]

/-- Witness for C1 at `N = 4`, `M = 2`, `src = [5, 7]`: index 0 copies,
index 3 is zero-filled. -/
theorem convert_spec_witness :
    (Tuple.convert 4 (fun u : Int => u) (⟨![5, 7]⟩ : Tuple 2 Int)).mm
        ⟨0, by omega⟩ = 5
    ∧ (Tuple.convert 4 (fun u : Int => u) (⟨![5, 7]⟩ : Tuple 2 Int)).mm
        ⟨3, by omega⟩ = 0 := by
  have h0 := (convert_spec 4 (fun u : Int => u)
      (⟨![5, 7]⟩ : Tuple 2 Int) ⟨0, by omega⟩).1 (by decide)
  have h3 := (convert_spec 4 (fun u : Int => u)
      (⟨![5, 7]⟩ : Tuple 2 Int) ⟨3, by omega⟩).2.1 (by decide)
  exact ⟨by rw [h0]; rfl, by rw [h3]⟩

/-- C8: writing element `i` through the mutable `operator[]` changes only
slot `i`; every other slot keeps its previous value. -/
theorem set_frame {n : Nat} {T : Type} (t : Tuple n T) (i : Fin n) (x : T) :
    (t.set i x).mm i = x
    ∧ ∀ j : Fin n, j ≠ i → (t.set i x).mm j = t.mm j := by
  constructor
  · simp [Tuple.set]
  · intro j hj
    simp [Tuple.set, hj]

/-- Witness for C8 at `t = [10, 20, 30]`, `i = 1`, `x = 99`. -/
theorem set_frame_witness :
    ((⟨![10, 20, 30]⟩ : Tuple 3 Int).set 1 99).mm 1 = 99
    ∧ ((⟨![10, 20, 30]⟩ : Tuple 3 Int).set 1 99).mm 0 = 10 := by
  have h := set_frame (⟨![10, 20, 30]⟩ : Tuple 3 Int) 1 99
  exact ⟨h.1, (h.2 0 (by decide)).trans (by decide)⟩

/-- C3: `Abs` is elementwise absolute value, with the integer operation
selected when the element type is integral (`boost::is_integral<int>` is
true, so integer tuples use `::abs`) and the floating operation otherwise;
`Abs` maps the integer tuple `{-1, 2, -3}` to `{1, 2, 3}`. -/
theorem Abs_spec {n : Nat} (t : Tuple n Int) (i : Fin n) :
    (absIntTuple t).mm i = |t.mm i|
    ∧ (∀ (m : Nat) (T : Type) (fabsOp absOp : T → T) (u : Tuple m T)
        (j : Fin m),
        (Abs true fabsOp absOp u).mm j = absOp (u.mm j)
        ∧ (Abs false fabsOp absOp u).mm j = fabsOp (u.mm j))
    ∧ absIntTuple (⟨![(-1 : Int), 2, -3]⟩ : Tuple 3 Int) = ⟨![1, 2, 3]⟩ := by
  refine ⟨?_, ?_, ?_⟩
  · show cAbs (t.mm i) = |t.mm i|
    rw [cAbs]
    rcases le_or_lt 0 (t.mm i) with h | h
    · rw [if_neg (not_lt.mpr h), abs_of_nonneg h]
    · rw [if_pos h, abs_of_neg h]
  · intro m T fabsOp absOp u j
    exact ⟨rfl, rfl⟩
  · decide

lemma foldl_str_step {n : Nat} {T : Type} (shw : T → String) (t : Tuple n T) :
    ∀ (L : List (Fin n)), (∀ j ∈ L, j.val ≠ 0) → ∀ buf : String,
      L.foldl (fun buffer j =>
        (if j.val ≠ 0 then buffer ++ ", " else buffer) ++ shw (t.mm j)) buf
      = buf ++ sepTail (L.map fun j => shw (t.mm j))
  | [], _, buf => by simp [sepTail]
  | j :: rest, h, buf => by
    have hj : j.val ≠ 0 := h j (List.mem_cons_self _ _)
    rw [List.foldl_cons, if_pos hj,
      foldl_str_step shw t rest (fun k hk => h k (List.mem_cons_of_mem _ hk))]
    simp [sepTail, List.map_cons, String.append_assoc]

lemma str_eq_sepConcat {n : Nat} {T : Type} (shw : T → String)
    (t : Tuple n T) :
    Tuple.str shw t
      = "[" ++ sepConcat (((List.finRange n).map t.mm).map shw) ++ "]" := by
  cases n with
  | zero => simp [Tuple.str, sepConcat, List.finRange_zero]
  | succ m =>
    rw [Tuple.str, List.finRange_succ_eq_map, List.foldl_cons]
    have h0 : ¬ ((0 : Fin (m + 1)).val ≠ 0) := by simp
    rw [if_neg h0, foldl_str_step shw t _
      (fun k hk => by
        obtain ⟨k', -, rfl⟩ := List.mem_map.mp hk
        simp [Fin.val_succ])]
    simp only [sepConcat, List.map_map, List.map_cons, String.append_assoc]
    rfl

/-- C6: `str()` produces `"["`, the elements' default textual renderings
in index order separated by `", "`, then `"]"`; a 3-element integer tuple
`[1, 2, 3]` formats as exactly `"[1, 2, 3]"`; `operator<<` emits the same
string. -/
theorem str_spec {n : Nat} {T : Type} (shw : T → String) (t : Tuple n T) :
    Tuple.str shw t
      = "[" ++ sepConcat (((List.finRange n).map t.mm).map shw) ++ "]"
    ∧ tupleStreamOut shw t = Tuple.str shw t
    ∧ Tuple.str toString (⟨![1, 2, 3]⟩ : Tuple 3 Int) = "[1, 2, 3]" :=
  ⟨str_eq_sepConcat shw t, rfl, by decide⟩

lemma sepTail_length :
    ∀ es : List String,
      (sepTail es).length = (es.map String.length).sum + 2 * es.length
  | [] => by simp [sepTail]
  | e :: rest => by
    simp only [sepTail, String.length_append, sepTail_length rest,
      List.map_cons, List.sum_cons, List.length_cons]
    have : (", ").length = 2 := rfl
    omega

lemma sepConcat_length :
    ∀ es : List String,
      (sepConcat es).length
        = (es.map String.length).sum + 2 * (es.length - 1)
  | [] => by simp [sepConcat]
  | e :: rest => by
    simp only [sepConcat, String.length_append, sepTail_length rest,
      List.map_cons, List.sum_cons, List.length_cons]
    omega

/-- C10: `str()` on a 1-element tuple is exactly `"[" ++ e0 ++ "]"` with
no separator, and in general the output length is 2 (for the brackets)
plus the element texts plus `2 * (N - 1)` characters of separators:
exactly `N - 1` two-character separators, none leading or trailing. -/
theorem str_separator_count {n : Nat} {T : Type} (shw : T → String)
    (t : Tuple n T) (u : Tuple 1 T) :
    Tuple.str shw u = "[" ++ shw (u.mm 0) ++ "]"
    ∧ (Tuple.str shw t).length
        = 2 + ((((List.finRange n).map fun j => (shw (t.mm j)).length).sum)
            + 2 * (n - 1)) := by
  constructor
  · rw [str_eq_sepConcat]
    simp [sepConcat, sepTail, List.finRange_succ_eq_map, List.finRange_zero,
      String.append_empty]
  · rw [str_eq_sepConcat, String.length_append, String.length_append,
      sepConcat_length]
    have h1 : ("[").length = 1 := rfl
    have h2 : ("]").length = 1 := rfl
    have h3 : ((((List.finRange n).map t.mm).map shw).map String.length).sum
        = ((List.finRange n).map fun j => (shw (t.mm j)).length).sum := by
      rw [List.map_map, List.map_map]
      rfl
    have h4 : (((List.finRange n).map t.mm).map shw).length = n := by
      simp
    rw [h1, h2, h3, h4]
    omega

lemma decI_encI (x : Int) : decI (encI x) = x := by
  rw [encI, decI]
  simp only [List.headD_cons]
  split_ifs <;> omega

lemma flatten_uniform_length {szT : Nat} :
    ∀ L : List (List Nat), (∀ l ∈ L, l.length = szT) →
      L.flatten.length = szT * L.length
  | [], _ => by simp
  | e :: rest, h => by
    rw [List.flatten_cons, List.length_append,
      flatten_uniform_length rest (fun l hl => h l (List.mem_cons_of_mem _ hl)),
      h e (List.mem_cons_self _ _), List.length_cons]
    ring

lemma flatten_chunk {szT : Nat} :
    ∀ (L : List (List Nat)), (∀ l ∈ L, l.length = szT) →
      ∀ (i : Nat) (hi : i < L.length),
        (L.flatten.drop (szT * i)).take szT = L.get ⟨i, hi⟩
  | e :: rest, h, 0, _ => by
    have he : e.length = szT := h e (List.mem_cons_self _ _)
    rw [List.flatten_cons, Nat.mul_zero, List.drop_zero,
      List.take_append_of_le_length (by omega), ← he, List.take_length]
    rfl
  | e :: rest, h, i + 1, hi => by
    have he : e.length = szT := h e (List.mem_cons_self _ _)
    have hsz : szT * (i + 1) = e.length + szT * i := by rw [he]; ring
    rw [List.flatten_cons, hsz, List.drop_append,
      flatten_chunk rest (fun l hl => h l (List.mem_cons_of_mem _ hl)) i
        (Nat.lt_of_succ_lt_succ hi)]
    rfl

lemma write_uniform {n : Nat} {T : Type} {szT : Nat} {enc : T → List Nat}
    (hlen : ∀ x, (enc x).length = szT) (t : Tuple n T) :
    ∀ l ∈ (List.finRange n).map fun i => enc (t.mm i), l.length = szT := by
  intro l hl
  obtain ⟨i, -, rfl⟩ := List.mem_map.mp hl
  exact hlen _

lemma write_length {n : Nat} {T : Type} {szT : Nat} (enc : T → List Nat)
    (hlen : ∀ x, (enc x).length = szT) (t : Tuple n T) :
    (Tuple.write enc t).length = szT * n := by
  rw [Tuple.write, flatten_uniform_length _ (write_uniform hlen t),
    List.length_map, List.length_finRange]

lemma write_chunk {n : Nat} {T : Type} {szT : Nat} (enc : T → List Nat)
    (hlen : ∀ x, (enc x).length = szT) (t : Tuple n T) (i : Fin n) :
    ((Tuple.write enc t).drop (szT * i.val)).take szT = enc (t.mm i) := by
  rw [Tuple.write, flatten_chunk _ (write_uniform hlen t) i.val
    (by rw [List.length_map, List.length_finRange]; exact i.isLt)]
  rw [List.get_eq_getElem, List.getElem_map, List.getElem_finRange]
  exact congrArg (fun k => enc (t.mm k)) (Fin.ext rfl)

lemma read_mm {n : Nat} {T : Type} (szT : Nat) (enc : T → List Nat)
    (dec : List Nat → T) (bs : List Nat) (t : Tuple n T) (j : Fin n) :
    (Tuple.read szT enc dec bs t).mm j
      = dec ((((bs.take (szT * n))
          ++ (Tuple.write enc t).drop (bs.take (szT * n)).length).drop
            (szT * j.val)).take szT) := rfl

/-- C4: writing a tuple's `N * sizeof(T)` bytes and reading them back into
any same-shape tuple reproduces the original element values exactly
(`enc`/`dec` being the platform's element encoding and its inverse). -/
theorem write_read_roundtrip {n : Nat} {T : Type} (szT : Nat)
    (enc : T → List Nat) (dec : List Nat → T)
    (hlen : ∀ x, (enc x).length = szT) (hdec : ∀ x, dec (enc x) = x)
    (t z : Tuple n T) :
    Tuple.read szT enc dec (Tuple.write enc t) z = t := by
  have hw : (Tuple.write enc t).length = szT * n := write_length enc hlen _
  have htake : (Tuple.write enc t).take (szT * n) = Tuple.write enc t :=
    List.take_of_length_le (by omega)
  have hdropz : (Tuple.write enc z).drop (Tuple.write enc t).length = [] :=
    List.drop_eq_nil_of_le (by rw [write_length enc hlen z, hw])
  have hmm : (Tuple.read szT enc dec (Tuple.write enc t) z).mm = t.mm := by
    funext i
    rw [read_mm, htake, hdropz, List.append_nil,
      write_chunk enc hlen t i, hdec]
  exact congrArg Tuple.mk hmm

/-- Witness for C4: the integer tuple `[1, -2, 3]` written then read back
into the zero tuple yields `[1, -2, 3]`. -/
theorem write_read_roundtrip_witness :
    Tuple.read 1 encI decI
        (Tuple.write encI (⟨![1, -2, 3]⟩ : Tuple 3 Int)) ⟨![0, 0, 0]⟩
      = ⟨![1, -2, 3]⟩ :=
  write_read_roundtrip 1 encI decI (fun _ => rfl) decI_encI
    (⟨![1, -2, 3]⟩ : Tuple 3 Int) ⟨![0, 0, 0]⟩

/-- C7: `read` validates nothing and reports no failure: it is total, and
on a short input the delivered bytes overwrite a prefix of the array while
elements beyond the delivered bytes keep their prior values — an element
whose byte slot lies past the delivered bytes is unchanged, and an element
whose slot is fully delivered is decoded from the input bytes. -/
theorem read_short_spec {n : Nat} {T : Type} (szT : Nat)
    (enc : T → List Nat) (dec : List Nat → T)
    (hlen : ∀ x, (enc x).length = szT) (hdec : ∀ x, dec (enc x) = x)
    (bs : List Nat) (t : Tuple n T) (j : Fin n) :
    (min bs.length (szT * n) ≤ szT * j.val →
        (Tuple.read szT enc dec bs t).mm j = t.mm j)
    ∧ (szT * (j.val + 1) ≤ bs.length →
        (Tuple.read szT enc dec bs t).mm j
          = dec ((bs.drop (szT * j.val)).take szT)) := by
  have hdlen : (bs.take (szT * n)).length = min (szT * n) bs.length :=
    List.length_take _ _
  have hd : szT * (j.val + 1) = szT * j.val + szT := by ring
  have hmul : szT * (j.val + 1) ≤ szT * n :=
    Nat.mul_le_mul (le_refl szT) (by omega)
  constructor
  · intro hshort
    have hsplit : szT * j.val
        = (bs.take (szT * n)).length
          + (szT * j.val - (bs.take (szT * n)).length) := by
      omega
    rw [read_mm, hsplit, List.drop_append, List.drop_drop,
      show (bs.take (szT * n)).length
          + (szT * j.val - (bs.take (szT * n)).length) = szT * j.val by omega,
      write_chunk enc hlen t j, hdec]
  · intro hfull
    have hcov : szT * (j.val + 1) ≤ (bs.take (szT * n)).length := by
      omega
    have h1 : ((bs.take (szT * n)
          ++ (Tuple.write enc t).drop (bs.take (szT * n)).length).drop
            (szT * j.val))
        = (bs.take (szT * n)).drop (szT * j.val)
          ++ (Tuple.write enc t).drop (bs.take (szT * n)).length :=
      List.drop_append_of_le_length (by omega)
    have h2 : szT ≤ ((bs.take (szT * n)).drop (szT * j.val)).length := by
      rw [List.length_drop]
      omega
    rw [read_mm, h1, List.take_append_of_le_length h2, List.drop_take,
      List.take_take,
      show szT ⊓ (szT * n - szT * j.val) = szT by omega]

/-- Witness for C7: `szT = 1`, `n = 3`, a 1-byte input `[18]` against
`[1, 2, 3]`: element 0 is decoded from the input (`decI [18] = 9`),
element 2 keeps its prior value `3`; no error is possible. -/
theorem read_short_spec_witness :
    (Tuple.read 1 encI decI [18] (⟨![1, 2, 3]⟩ : Tuple 3 Int)).mm 2 = 3
    ∧ (Tuple.read 1 encI decI [18] (⟨![1, 2, 3]⟩ : Tuple 3 Int)).mm 0 = 9 := by
  have h2 := (read_short_spec 1 encI decI (fun _ => rfl) decI_encI [18]
      (⟨![1, 2, 3]⟩ : Tuple 3 Int) 2).1 (by decide)
  have h0 := (read_short_spec 1 encI decI (fun _ => rfl) decI_encI [18]
      (⟨![1, 2, 3]⟩ : Tuple 3 Int) 0).2 (by decide)
  exact ⟨by rw [h2]; rfl, by rw [h0]; rfl⟩

end math
